import Mathlib

/-!
Verification of the heif2png tile-assembly pipeline (`main.go`) against its
natural-language specification.  The Go source is shallowly embedded:

* `HeifInfo`, `splitIntLine`, `splitLines`, `applyLine`, `heifParseInfo`
  embed the metadata resolver `heifGetInfo` (the text-parsing part; the
  external process invocation is out of scope).
* `fixupSingleTile` embeds the `if info.Tiles == 1` fixup in `main`.
* `GoImage`, `drawSrc`, `QueueItem`, `makeQueue`, `runJob`, `runQueue`
  embed the canvas, `draw.Draw` with `draw.Src`, the queue population and
  the worker loop of `main`.
* `goExt`, `asciiLowerStr`, `chooseEncoder`, `mainTail` embed the rotation
  and encode tail of `main` (`filepath.Ext`, `strings.ToLower`, the
  extension switch and the `os.Create` sequencing).

Go `int` values are modelled as `Int`; text as `List Char` (one entry per
byte of the ASCII streams the tool exchanges).  Unicode-aware library
helpers (`strings.ToLower`, `bytes.TrimSpace`) are modelled on the ASCII
range, which is exact for every byte value they can meet in the paths
verified here.
-/

/-- Embeds the Go struct `HeifInfo`; all fields default to Go's zero value. -/
structure HeifInfo where
  Width : Int := 0
  Height : Int := 0
  Rotation : Int := 0
  Tiles : Int := 0
  Rows : Int := 0
  Cols : Int := 0
deriving DecidableEq

/-- Embeds `unicode.IsSpace` on single bytes, as used by `bytes.TrimSpace`. -/
def goIsSpace (c : Char) : Bool :=
  c = ' ' ∨ c = '\t' ∨ c = '\n' ∨ c = '\x0B' ∨ c = '\x0C' ∨ c = '\r' ∨
    c = '\x85' ∨ c = '\xA0'

/-- Embeds `bytes.TrimSpace`: strips leading and trailing space bytes. -/
def goTrimSpace (s : List Char) : List Char :=
  ((s.dropWhile goIsSpace).reverse.dropWhile goIsSpace).reverse

/-- Decimal digit test for `strconv.ParseInt` with base 10. -/
def isDecDigit (c : Char) : Bool := '0' ≤ c ∧ c ≤ '9'

/-- Value of a digit string (most significant first). -/
def digitsToNat (l : List Char) : Nat :=
  l.foldl (fun a c => a * 10 + (c.toNat - '0'.toNat)) 0

/-- Embeds `strconv.ParseInt(s, 10, 32)`: optional sign, at least one
decimal digit, result must fit in 32 signed bits; `none` on any error. -/
def goParseInt32 (s : List Char) : Option Int :=
  let core : Bool × List Char :=
    match s with
    | '+' :: r => (false, r)
    | '-' :: r => (true, r)
    | r => (false, r)
  let neg := core.1
  let ds := core.2
  if ds = [] ∨ ¬ ds.all isDecDigit then none
  else
    let v : Int := if neg then -(digitsToNat ds : Int) else (digitsToNat ds : Int)
    if v < -(2 ^ 31) ∨ 2 ^ 31 - 1 < v then none else some v

/-- Embeds the `splitInt` closure of `heifGetInfo`: find the first `=`
byte, parse the trimmed remainder as a 32-bit decimal integer; on success
return the (untrimmed) name part and the value, otherwise `none`. -/
def splitIntLine (line : List Char) : Option (List Char × Int) :=
  match line.findIdx? (· = '=') with
  | none => none
  | some pos =>
    match goParseInt32 (goTrimSpace (line.drop (pos + 1))) with
    | none => none
    | some v => some (line.take pos, v)

/-- Helper for `splitLines`: accumulates the current line until a newline
byte is met; a trailing fragment without a newline is discarded, matching
`bufio.ReadBytes` returning `io.EOF` and the `break` in `heifGetInfo`. -/
def splitLinesAux : List Char → List Char → List (List Char)
  | _, [] => []
  | acc, c :: rest =>
    if c = '\n' then (acc ++ [c]) :: splitLinesAux [] rest
    else splitLinesAux (acc ++ [c]) rest

/-- Embeds the `rd.ReadBytes` loop of `heifGetInfo`: the stream split into
newline-terminated lines, each including its terminator. -/
def splitLines (s : List Char) : List (List Char) := splitLinesAux [] s

/-- Embeds one iteration of the parse loop in `heifGetInfo`: the if/else
chain over recognized field names (names are compared exactly, untrimmed). -/
def applyLine (info : HeifInfo) (line : List Char) : HeifInfo :=
  match splitIntLine line with
  | none => info
  | some (nm, val) =>
    if nm = "width".toList then { info with Width := val }
    else if nm = "height".toList then { info with Height := val }
    else if nm = "rotation".toList then { info with Rotation := val }
    else if nm = "tiles".toList then { info with Tiles := val }
    else if nm = "rows".toList then { info with Rows := val }
    else if nm = "cols".toList then { info with Cols := val }
    else info

/-- Embeds the parsing part of `heifGetInfo`: fold the line parser over the
stream, starting from the zero-valued struct. -/
def heifParseInfo (s : List Char) : HeifInfo :=
  (splitLines s).foldl applyLine {}

/-- Embeds `main`'s post-resolution fixup: `if info.Tiles == 1` force one
row and one column. -/
def fixupSingleTile (info : HeifInfo) : HeifInfo :=
  if info.Tiles = 1 then { info with Cols := 1, Rows := 1 } else info

/-- Names the six recognized metadata fields, for reasoning about which
field (if any) a metadata line assigns. -/
inductive MetaField where
  | width
  | height
  | rot
  | tiles
  | rows
  | cols
deriving DecidableEq

/-- Maps a raw name part to the recognized field it selects, mirroring the
if/else chain of `heifGetInfo`; `none` for unrecognized names. -/
def recognizeName (nm : List Char) : Option MetaField :=
  if nm = "width".toList then some .width
  else if nm = "height".toList then some .height
  else if nm = "rotation".toList then some .rot
  else if nm = "tiles".toList then some .tiles
  else if nm = "rows".toList then some .rows
  else if nm = "cols".toList then some .cols
  else none

/-- Field assigned by a metadata line: `none` when the line is skipped
(no `=`, malformed value, or unrecognized name). -/
def lineField (line : List Char) : Option MetaField :=
  match splitIntLine line with
  | none => none
  | some (nm, _) => recognizeName nm

/-- Functional update of one recognized field. -/
def setField (f : MetaField) (v : Int) (i : HeifInfo) : HeifInfo :=
  match f with
  | .width => { i with Width := v }
  | .height => { i with Height := v }
  | .rot => { i with Rotation := v }
  | .tiles => { i with Tiles := v }
  | .rows => { i with Rows := v }
  | .cols => { i with Cols := v }

/-- Projection of one recognized field. -/
def getField (f : MetaField) (i : HeifInfo) : Int :=
  match f with
  | .width => i.Width
  | .height => i.Height
  | .rot => i.Rotation
  | .tiles => i.Tiles
  | .rows => i.Rows
  | .cols => i.Cols

/-- Folding the line parser over an explicit list of lines from the zero
struct; `heifParseInfo s` is this applied to `splitLines s`. -/
def parseLines (ls : List (List Char)) : HeifInfo :=
  ls.foldl applyLine {}

/-- Embeds an `image.Image` whose bounds are `(0,0)-(w,h)`: decoded tiles
(`png.Decode` output) and the `image.NewRGBA` canvas both have zero-based
bounds.  `pix x y` is the abstract pixel value at column `x`, row `y`. -/
@[ext]
structure GoImage where
  w : Int
  h : Int
  pix : Int → Int → Nat

/-- Embeds `image.NewRGBA(image.Rect(0, 0, W, H))`: a zero-initialized
(transparent black) canvas. -/
def zeroCanvas (W H : Int) : GoImage :=
  { w := W, h := H, pix := fun _ _ => 0 }

/-- Embeds `draw.Draw(dst, r, src, image.Point{}, draw.Src)` where `r` has
min corner `(rx, ry)` and the size of `src`: within `r`, clipped to the
destination bounds, the source pixel replaces the destination pixel
(opaque copy, no blending); everywhere else the destination is kept. -/
def drawSrc (dst : GoImage) (rx ry : Int) (src : GoImage) : GoImage :=
  { dst with pix := fun x y =>
      if rx ≤ x ∧ x < rx + src.w ∧ ry ≤ y ∧ y < ry + src.h ∧
          0 ≤ x ∧ x < dst.w ∧ 0 ≤ y ∧ y < dst.h
      then src.pix (x - rx) (y - ry)
      else dst.pix x y }

/-- Embeds the Go struct `QueueItem` of `main`. -/
structure QueueItem where
  hevcFile : String
  x : Int
  y : Int
deriving DecidableEq

/-- Go's `%` on `int` (truncated remainder); `none` models the runtime
panic `integer divide by zero`. -/
def goIntRem (a b : Int) : Option Int :=
  if b = 0 then none else some (Int.tmod a b)

/-- Go's `/` on `int` (truncated quotient); `none` models the runtime
panic `integer divide by zero`. -/
def goIntQuo (a b : Int) : Option Int :=
  if b = 0 then none else some (Int.tdiv a b)

/-- Embeds the queue-population loop `for i, f := range hevcFiles` of
`main`, carrying the running index: each file becomes a job at column
`i % cols` and row `i / cols`. -/
def makeQueueAux (cols : Int) : Nat → List String → Option (List QueueItem)
  | _, [] => some []
  | i, f :: rest => do
    let x ← goIntRem (i : Int) cols
    let y ← goIntQuo (i : Int) cols
    let q ← makeQueueAux cols (i + 1) rest
    pure (⟨f, x, y⟩ :: q)

/-- The populated (and closed) job queue of `main`. -/
def makeQueue (cols : Int) (files : List String) : Option (List QueueItem) :=
  makeQueueAux cols 0 files

/-- Shared state of the worker pool: the destination canvas `dstImg` and
the shared error slot `processError`. -/
structure WorkerState where
  canvas : GoImage
  processError : Option String

/-- Embeds one iteration of the worker loop body: decode the tile
(`hevc2Image`); on failure record the error and keep going; on success
compute the destination rectangle from the decoded bounds and composite
with `draw.Src`. -/
def runJob (decode : String → Except String GoImage) (st : WorkerState)
    (job : QueueItem) : WorkerState :=
  match decode job.hevcFile with
  | .error e => { st with processError := some e }
  | .ok img =>
    { st with canvas := drawSrc st.canvas (job.x * img.w) (job.y * img.h) img }

/-- Processing a sequence of jobs in order: the sequential elaboration of
the worker pool's draws (any interleaving of the disjoint per-tile draws is
some permutation of the job list fed to this fold). -/
def runQueue (decode : String → Except String GoImage) (st : WorkerState)
    (q : List QueueItem) : WorkerState :=
  q.foldl (runJob decode) st

/-- Embeds one worker's `for f := range queue` loop, also returning the
ordered list of decode invocations it performs; the loop body has no abort
path, mirroring the Go code, so it runs to the end of its share of jobs. -/
def runWorkerLoop (decode : String → Except String GoImage) :
    WorkerState → List QueueItem → WorkerState × List String
  | st, [] => (st, [])
  | st, job :: rest =>
    let r := runWorkerLoop decode (runJob decode st job) rest
    (r.1, job.hevcFile :: r.2)

/-- Tests whether a decode attempt failed. -/
def isErr {ε α : Type _} : Except ε α → Bool
  | .error _ => true
  | .ok _ => false

/-- Embeds the rotation step of `main`: `if info.Rotation != 0` apply
`imaging.Rotate` (modelled by the opaque `rotate`), else pass the canvas
through untouched. -/
def applyRotation (rotate : GoImage → GoImage) (rotation : Int)
    (img : GoImage) : GoImage :=
  if rotation ≠ 0 then rotate img else img

/-- Embeds `strings.ToLower` on one byte: ASCII upper-case letters shift
into lower case, everything else is unchanged. -/
def asciiLowerChar (c : Char) : Char :=
  if 65 ≤ c.toNat ∧ c.toNat ≤ 90 then Char.ofNat (c.toNat + 32) else c

/-- Embeds `strings.ToLower` over a byte string. -/
def asciiLowerStr (s : List Char) : List Char :=
  s.map asciiLowerChar

/-- Helper for `goExt`: scanning the reversed path, collect bytes up to and
including the first `.`; stop empty-handed at a path separator or at the
start of the string. -/
def extSearch : List Char → Option (List Char)
  | [] => none
  | c :: rest =>
    if c = '/' then none
    else if c = '.' then some [c]
    else (extSearch rest).map (fun e => c :: e)

/-- Embeds `filepath.Ext`: the suffix starting at the final dot in the last
path element, empty when there is none. -/
def goExt (path : List Char) : List Char :=
  match extSearch path.reverse with
  | none => []
  | some e => e.reverse

/-- The three arms of the destination-extension switch in `main`. -/
inductive EncChoice where
  | png
  | jpeg
  | unsupported
deriving DecidableEq

/-- Embeds `switch strings.ToLower(filepath.Ext(dstFile))` of `main`. -/
def chooseEncoder (dstFile : List Char) : EncChoice :=
  let ext := asciiLowerStr (goExt dstFile)
  if ext = ".png".toList then .png
  else if ext = ".jpg".toList ∨ ext = ".jpeg".toList then .jpeg
  else .unsupported

/-- Observable outcome of the final block of `main`: whether `os.Create`
produced a destination file, what (if anything) was encoded into it, and
which diagnostics were printed. -/
structure EncodeOutcome where
  fileCreated : Bool
  written : Option (EncChoice × GoImage)
  unsupportedReported : Bool
  createFailReported : Bool

/-- Embeds the tail of `main` after the join barrier `wg.Wait()`: rotate,
`os.Create` the destination (`createOk` says whether that succeeds), then
switch on the lowercased extension.  Note the faithful omissions: the
recorded `processError` is never consulted, and the file is created before
the extension is inspected. -/
def mainTail (rotate : GoImage → GoImage) (info : HeifInfo)
    (st : WorkerState) (dstFile : List Char) (createOk : Bool) : EncodeOutcome :=
  let img := applyRotation rotate info.Rotation st.canvas
  if createOk then
    match chooseEncoder dstFile with
    | .png => ⟨true, some (.png, img), false, false⟩
    | .jpeg => ⟨true, some (.jpeg, img), false, false⟩
    | .unsupported => ⟨true, none, true, false⟩
  else ⟨false, none, false, true⟩

/-- Membership of a pixel in the destination rectangle a job's decoded
image is drawn into. -/
def inRect (j : QueueItem) (img : GoImage) (x y : Int) : Prop :=
  j.x * img.w ≤ x ∧ x < j.x * img.w + img.w ∧
    j.y * img.h ≤ y ∧ y < j.y * img.h + img.h

instance (j : QueueItem) (img : GoImage) (x y : Int) :
    Decidable (inRect j img x y) := by
  unfold inRect
  infer_instance

lemma heifParseInfo_eq_parseLines (s : List Char) :
    heifParseInfo s = parseLines (splitLines s) := rfl

lemma applyLine_of_none {l : List Char} (h : lineField l = none)
    (i : HeifInfo) : applyLine i l = i := by
  unfold lineField at h
  unfold applyLine
  cases hs : splitIntLine l with
  | none => rfl
  | some p =>
    obtain ⟨nm, v⟩ := p
    rw [hs] at h
    unfold recognizeName at h
    dsimp only at h ⊢
    split_ifs at h <;> simp_all

lemma applyLine_of_some {l nm : List Char} {v : Int} {f : MetaField}
    (hs : splitIntLine l = some (nm, v)) (hr : recognizeName nm = some f)
    (i : HeifInfo) : applyLine i l = setField f v i := by
  unfold applyLine
  rw [hs]
  unfold recognizeName at hr
  split_ifs at hr <;> simp_all <;> subst hr <;> rfl

lemma lineField_of_some {l nm : List Char} {v : Int}
    (hs : splitIntLine l = some (nm, v)) :
    lineField l = recognizeName nm := by
  unfold lineField
  rw [hs]

lemma setField_comm {f g : MetaField} (hfg : f ≠ g) (v w : Int)
    (i : HeifInfo) : setField f v (setField g w i) = setField g w (setField f v i) := by
  cases f <;> cases g <;> first
    | exact absurd rfl hfg
    | rfl

lemma getField_setField_ne {f g : MetaField} (hfg : f ≠ g) (v : Int)
    (i : HeifInfo) : getField f (setField g v i) = getField f i := by
  cases f <;> cases g <;> first
    | exact absurd rfl hfg
    | rfl

lemma applyLine_comm {x y : List Char}
    (h : lineField x = none ∨ lineField y = none ∨ lineField x ≠ lineField y)
    (z : HeifInfo) : applyLine (applyLine z x) y = applyLine (applyLine z y) x := by
  rcases hx : lineField x with _ | f
  · rw [applyLine_of_none hx, applyLine_of_none hx]
  · rcases hy : lineField y with _ | g
    · rw [applyLine_of_none hy, applyLine_of_none hy]
    · have hfg : f ≠ g := by
        rw [hx, hy] at h
        rcases h with h | h | h
        · exact absurd h (by simp)
        · exact absurd h (by simp)
        · intro he
          exact h (by rw [he])
      unfold lineField at hx hy
      rcases hsx : splitIntLine x with _ | ⟨nmx, vx⟩
      · rw [hsx] at hx; exact absurd hx (by simp)
      · rcases hsy : splitIntLine y with _ | ⟨nmy, vy⟩
        · rw [hsy] at hy; exact absurd hy (by simp)
        · rw [hsx] at hx
          rw [hsy] at hy
          rw [applyLine_of_some hsx hx, applyLine_of_some hsy hy,
            applyLine_of_some hsx hx, applyLine_of_some hsy hy,
            setField_comm hfg]

/-- Folding a binary step over a list is invariant under permutation when
every pair of list elements commutes as right actions. -/
lemma foldl_perm_of_comm {α β : Type _} {f : β → α → β} {l₁ l₂ : List α}
    (p : l₁.Perm l₂)
    (comm : ∀ x ∈ l₁, ∀ y ∈ l₁, ∀ z, f (f z x) y = f (f z y) x) :
    ∀ init, l₁.foldl f init = l₂.foldl f init := by
  induction p with
  | nil => intro _; rfl
  | cons a p ih =>
    intro init
    simp only [List.foldl_cons]
    exact ih
      (fun x hx y hy => comm x (List.mem_cons_of_mem a hx) y (List.mem_cons_of_mem a hy))
      (f init a)
  | swap a b l =>
    intro init
    simp only [List.foldl_cons]
    rw [comm b (by simp) a (by simp)]
  | trans p q ih1 ih2 =>
    intro init
    rw [ih1 comm init]
    exact ih2 (fun x hx y hy => comm x (p.symm.subset hx) y (p.symm.subset hy)) init

lemma getField_foldl_of_unset (f : MetaField) :
    ∀ (ls : List (List Char)) (i : HeifInfo),
      (∀ l ∈ ls, lineField l ≠ some f) →
      getField f (ls.foldl applyLine i) = getField f i := by
  intro ls
  induction ls with
  | nil => intro i _; rfl
  | cons a t ih =>
    intro i h
    rw [List.foldl_cons]
    rw [ih _ (fun l hl => h l (List.mem_cons_of_mem a hl))]
    rcases ha : lineField a with _ | g
    · rw [applyLine_of_none ha]
    · have hgf : f ≠ g := fun he => h a (List.mem_cons_self a t) (by rw [ha, he])
      unfold lineField at ha
      rcases hsa : splitIntLine a with _ | ⟨nm, v⟩
      · rw [hsa] at ha; exact absurd ha (by simp)
      · rw [hsa] at ha
        rw [applyLine_of_some hsa ha, getField_setField_ne hgf]


lemma char_eq_of_toNat_eq {a b : Char} (h : a.toNat = b.toNat) : a = b :=
  Char.ext (UInt32.ext h)

lemma toNat_asciiLowerChar_upper {c : Char}
    (h : 65 ≤ c.toNat ∧ c.toNat ≤ 90) :
    (asciiLowerChar c).toNat = c.toNat + 32 := by
  unfold asciiLowerChar
  rw [if_pos h]
  have hv : (c.toNat + 32).isValidChar := Or.inl (by omega)
  unfold Char.ofNat
  rw [dif_pos hv]
  rfl

lemma asciiLowerChar_eq_low_iff {c d : Char} (hd : d.toNat < 65) :
    asciiLowerChar c = d ↔ c = d := by
  constructor
  · intro h
    by_cases hb : 65 ≤ c.toNat ∧ c.toNat ≤ 90
    · exfalso
      have h1 := toNat_asciiLowerChar_upper hb
      rw [h] at h1
      omega
    · unfold asciiLowerChar at h
      rwa [if_neg hb] at h
  · intro h
    subst h
    unfold asciiLowerChar
    rw [if_neg (by omega)]

lemma extSearch_lower (l : List Char) :
    extSearch (l.map asciiLowerChar) =
      (extSearch l).map (List.map asciiLowerChar) := by
  induction l with
  | nil => rfl
  | cons c rest ih =>
    have hslash : ('/' : Char).toNat < 65 := by decide
    have hdot : ('.' : Char).toNat < 65 := by decide
    simp only [List.map_cons, extSearch]
    by_cases h1 : c = '/'
    · rw [if_pos ((asciiLowerChar_eq_low_iff hslash).mpr h1), if_pos h1]
      rfl
    · rw [if_neg (fun hc => h1 ((asciiLowerChar_eq_low_iff hslash).mp hc)),
        if_neg h1]
      by_cases h2 : c = '.'
      · rw [if_pos ((asciiLowerChar_eq_low_iff hdot).mpr h2), if_pos h2]
        subst h2
        have : asciiLowerChar '.' = '.' := (asciiLowerChar_eq_low_iff hdot).mpr rfl
        simp [this]
      · rw [if_neg (fun hc => h2 ((asciiLowerChar_eq_low_iff hdot).mp hc)),
          if_neg h2, ih]
        cases extSearch rest <;> rfl

lemma goExt_lower (p : List Char) :
    goExt (asciiLowerStr p) = asciiLowerStr (goExt p) := by
  unfold goExt asciiLowerStr
  rw [← List.map_reverse, extSearch_lower]
  cases extSearch p.reverse with
  | none => rfl
  | some e =>
    simp [List.map_reverse]

/-- C10: destination-extension recognition is case-insensitive: the
extension is lowercased before the switch, so two destination names equal
up to ASCII case select the same encoder arm. -/
theorem extension_match_case_insensitive (s t : List Char)
    (h : asciiLowerStr s = asciiLowerStr t) :
    chooseEncoder s = chooseEncoder t := by
  have hext : asciiLowerStr (goExt s) = asciiLowerStr (goExt t) := by
    rw [← goExt_lower, ← goExt_lower, h]
  simp only [chooseEncoder]
  rw [hext]

/-- Witness for C10: `.PNG`, `.Jpg` and `.JPEG` destinations select the
png and jpeg encoders rather than being rejected. -/
theorem extension_match_case_insensitive_witness :
    chooseEncoder "x.PNG".toList = EncChoice.png ∧
      chooseEncoder "x.Jpg".toList = EncChoice.jpeg ∧
      chooseEncoder "x.JPEG".toList = EncChoice.jpeg :=
  ⟨(extension_match_case_insensitive "x.PNG".toList "x.png".toList
      (by decide)).trans (by decide),
    (extension_match_case_insensitive "x.Jpg".toList "x.jpg".toList
      (by decide)).trans (by decide),
    (extension_match_case_insensitive "x.JPEG".toList "x.jpeg".toList
      (by decide)).trans (by decide)⟩

/-- C2 counterexample: on a `.bmp` destination the run reports the
unsupported extension and writes no bytes, but the destination file IS
created (empty), because `os.Create` runs before the extension switch —
contradicting the claim that no destination file is created. -/
theorem unsupported_ext_file_created_counterexample :
    (mainTail (fun i => i) {} ⟨zeroCanvas 1 1, none⟩ "out.bmp".toList
        true).fileCreated = true ∧
      (mainTail (fun i => i) {} ⟨zeroCanvas 1 1, none⟩ "out.bmp".toList
        true).written = none ∧
      (mainTail (fun i => i) {} ⟨zeroCanvas 1 1, none⟩ "out.bmp".toList
        true).unsupportedReported = true := by
  exact ⟨rfl, rfl, rfl⟩

/-- C2 (amended): for every destination whose lowercased extension is not
`.png`, `.jpg` or `.jpeg`, the encode step reports an unsupported-format
error and writes no bytes — but the destination file is still created
(and left empty), since `os.Create` precedes the extension check. -/
theorem unsupported_ext_no_bytes_written (rotate : GoImage → GoImage)
    (info : HeifInfo) (st : WorkerState) (dst : List Char)
    (h1 : asciiLowerStr (goExt dst) ≠ ".png".toList)
    (h2 : asciiLowerStr (goExt dst) ≠ ".jpg".toList)
    (h3 : asciiLowerStr (goExt dst) ≠ ".jpeg".toList) :
    (mainTail rotate info st dst true).written = none ∧
      (mainTail rotate info st dst true).unsupportedReported = true ∧
      (mainTail rotate info st dst true).fileCreated = true := by
  have h : chooseEncoder dst = EncChoice.unsupported := by
    simp only [chooseEncoder]
    rw [if_neg h1, if_neg (not_or.mpr ⟨h2, h3⟩)]
  refine ⟨?_, ?_, ?_⟩ <;> simp [mainTail, h]

/-- Witness for C2 (amended) at the `.bmp` destination of the spec's
scenario. -/
theorem unsupported_ext_no_bytes_written_witness :
    (mainTail (fun i => i) {} ⟨zeroCanvas 2 2, none⟩ "pic.bmp".toList
        true).written = none ∧
      (mainTail (fun i => i) {} ⟨zeroCanvas 2 2, none⟩ "pic.bmp".toList
        true).unsupportedReported = true ∧
      (mainTail (fun i => i) {} ⟨zeroCanvas 2 2, none⟩ "pic.bmp".toList
        true).fileCreated = true :=
  unsupported_ext_no_bytes_written (fun i => i) {} ⟨zeroCanvas 2 2, none⟩
    "pic.bmp".toList (by decide) (by decide) (by decide)

/-- C7: rotation by 0 degrees is the identity transform — with a zero
rotation angle the canvas reaches the encoder unchanged, whatever rotation
primitive would otherwise be applied. -/
theorem rotation_zero_identity (rotate : GoImage → GoImage) (c : GoImage) :
    applyRotation rotate 0 c = c := by
  unfold applyRotation
  simp

/-- C9: the job-coordinate computation divides by the parsed `cols`; when
the metadata leaves `cols` at its zero default and the tile count is not 1
(so the single-tile fixup does not fire), populating a non-empty queue hits
an unguarded division by zero (modelled as `none`, Go's runtime panic). -/
theorem cols_zero_unguarded_division (s : List Char) (file : String)
    (files : List String)
    (hcols : (heifParseInfo s).Cols = 0)
    (htiles : (heifParseInfo s).Tiles ≠ 1) :
    (fixupSingleTile (heifParseInfo s)).Cols = 0 ∧
      makeQueue (fixupSingleTile (heifParseInfo s)).Cols (file :: files) =
        none := by
  have hfix : fixupSingleTile (heifParseInfo s) = heifParseInfo s := by
    unfold fixupSingleTile
    rw [if_neg htiles]
  rw [hfix, hcols]
  refine ⟨rfl, ?_⟩
  simp [makeQueue, makeQueueAux, goIntRem]

/-- Witness for C9: a stream reporting four tiles and no `cols` line. -/
theorem cols_zero_unguarded_division_witness :
    (heifParseInfo "tiles=4\n".toList).Cols = 0 ∧
      (heifParseInfo "tiles=4\n".toList).Tiles ≠ 1 ∧
      makeQueue (fixupSingleTile (heifParseInfo "tiles=4\n".toList)).Cols
          ["a"] = none :=
  ⟨by decide, by decide,
    (cols_zero_unguarded_division "tiles=4\n".toList "a" [] (by decide)
      (by decide)).2⟩

/-- C1: the code contradicts the spec here — the error recorded by a
failing tile decode is never consulted after the join barrier: the encode
outcome is a function of the canvas alone (first conjunct), and on a
concrete run whose only tile fails to decode, the error sits recorded in
`processError` while the destination is still written as if the run had
succeeded. -/
theorem recorded_decode_error_not_reported :
    (∀ (rotate : GoImage → GoImage) (info : HeifInfo) (canvas : GoImage)
        (e : String) (dst : List Char) (ok : Bool),
        mainTail rotate info ⟨canvas, some e⟩ dst ok =
          mainTail rotate info ⟨canvas, none⟩ dst ok) ∧
      (runQueue (fun _ => Except.error "boom") ⟨zeroCanvas 1 1, none⟩
          [⟨"t", 0, 0⟩]).processError = some "boom" ∧
      (mainTail (fun i => i)
          (fixupSingleTile (heifParseInfo "tiles=1\nwidth=1\nheight=1\n".toList))
          (runQueue (fun _ => Except.error "boom") ⟨zeroCanvas 1 1, none⟩
            [⟨"t", 0, 0⟩])
          "out.png".toList true).written ≠ none := by
  refine ⟨fun _ _ _ _ _ _ => rfl, rfl, ?_⟩
  intro hcontra
  have hsome :
      (mainTail (fun i => i)
          (fixupSingleTile (heifParseInfo "tiles=1\nwidth=1\nheight=1\n".toList))
          (runQueue (fun _ => Except.error "boom") ⟨zeroCanvas 1 1, none⟩
            [⟨"t", 0, 0⟩])
          "out.png".toList true).written =
        some (EncChoice.png, zeroCanvas 1 1) := rfl
  rw [hsome] at hcontra
  exact Option.noConfusion hcontra

lemma runWorkerLoop_spec (decode : String → Except String GoImage) :
    ∀ (jobs : List QueueItem) (st : WorkerState),
      (runWorkerLoop decode st jobs).1 = runQueue decode st jobs ∧
        (runWorkerLoop decode st jobs).2 = jobs.map (fun j => j.hevcFile) := by
  intro jobs
  induction jobs with
  | nil => intro st; exact ⟨rfl, rfl⟩
  | cons a t ih =>
    intro st
    unfold runWorkerLoop
    refine ⟨?_, ?_⟩
    · rw [(ih (runJob decode st a)).1]
      rfl
    · rw [List.map_cons]
      exact congrArg _ (ih (runJob decode st a)).2

lemma runQueue_error_persists (decode : String → Except String GoImage) :
    ∀ (jobs : List QueueItem) (st : WorkerState),
      st.processError ≠ none →
      (runQueue decode st jobs).processError ≠ none := by
  intro jobs
  induction jobs with
  | nil => intro st h; exact h
  | cons a t ih =>
    intro st h
    rw [runQueue, List.foldl_cons]
    refine ih (runJob decode st a) ?_
    unfold runJob
    cases decode a.hevcFile with
    | error e => simp
    | ok img => exact h

lemma runQueue_error_of_fail (decode : String → Except String GoImage) :
    ∀ (jobs : List QueueItem) (st : WorkerState),
      (∃ j ∈ jobs, isErr (decode j.hevcFile) = true) →
      (runQueue decode st jobs).processError ≠ none := by
  intro jobs
  induction jobs with
  | nil => intro st h; exact absurd h (by simp)
  | cons a t ih =>
    intro st h
    obtain ⟨j, hj, hfail⟩ := h
    rw [runQueue, List.foldl_cons]
    rcases List.mem_cons.mp hj with rfl | hjt
    · refine runQueue_error_persists decode t (runJob decode st j) ?_
      unfold runJob
      unfold isErr at hfail
      cases hd : decode j.hevcFile with
      | error e => simp
      | ok img => rw [hd] at hfail; exact absurd hfail (by simp)
    · exact ih (runJob decode st a) ⟨j, hjt, hfail⟩

/-- C6: for every split of the queued jobs among any number of workers, the
decode invocations performed across all workers are exactly the queued
tiles (one decode per tile, none skipped, whatever errors occur, since the
loop body has no abort path), and a worker among whose jobs some decode
fails finishes with a recorded error. -/
theorem decode_failures_skip_nothing (decode : String → Except String GoImage)
    (q : List QueueItem) (workers : List (List QueueItem))
    (hpart : workers.flatten.Perm q) (st : WorkerState) :
    ((workers.map fun b => (runWorkerLoop decode st b).2).flatten).Perm
        (q.map (fun j => j.hevcFile)) ∧
      ∀ b ∈ workers, (∃ j ∈ b, isErr (decode j.hevcFile) = true) →
        (runWorkerLoop decode st b).1.processError ≠ none := by
  constructor
  · have h1 : (workers.map fun b => (runWorkerLoop decode st b).2) =
        workers.map fun b => b.map (fun j => j.hevcFile) :=
      List.map_congr_left fun b _ => (runWorkerLoop_spec decode b st).2
    rw [h1, ← List.map_flatten]
    exact hpart.map _
  · intro b _ hex
    rw [(runWorkerLoop_spec decode b st).1]
    exact runQueue_error_of_fail decode b st hex

/-- Witness for C6: two tiles split over two workers, one tile failing to
decode; both tiles are still decoded and the failing worker ends with the
error recorded. -/
theorem decode_failures_skip_nothing_witness :
    (([[⟨"bad", 1, 0⟩], [⟨"good", 0, 0⟩]].map fun b =>
        (runWorkerLoop
          (fun s => if s = "bad" then Except.error "boom"
            else Except.ok (zeroCanvas 1 1))
          ⟨zeroCanvas 2 1, none⟩ b).2).flatten).Perm
        ([⟨"good", 0, 0⟩, ⟨"bad", 1, 0⟩].map
          (fun j => QueueItem.hevcFile j)) ∧
      (runWorkerLoop
          (fun s => if s = "bad" then Except.error "boom"
            else Except.ok (zeroCanvas 1 1))
          ⟨zeroCanvas 2 1, none⟩ [⟨"bad", 1, 0⟩]).1.processError ≠ none := by
  have H := decode_failures_skip_nothing
    (fun s => if s = "bad" then Except.error "boom"
      else Except.ok (zeroCanvas 1 1))
    [⟨"good", 0, 0⟩, ⟨"bad", 1, 0⟩]
    [[⟨"bad", 1, 0⟩], [⟨"good", 0, 0⟩]]
    (by decide) ⟨zeroCanvas 2 1, none⟩
  exact ⟨H.1, H.2 [⟨"bad", 1, 0⟩] (by simp)
    ⟨⟨"bad", 1, 0⟩, by simp, by decide⟩⟩

lemma tmod_natCast (m n : Nat) :
    Int.tmod (m : Int) (n : Int) = ((m % n : Nat) : Int) :=
  (Int.ofNat_tmod m n).symm

lemma tdiv_natCast (m n : Nat) :
    Int.tdiv (m : Int) (n : Int) = ((m / n : Nat) : Int) :=
  (Int.ofNat_tdiv m n).symm

lemma runJob_canvas_dims (decode : String → Except String GoImage)
    (st : WorkerState) (j : QueueItem) :
    (runJob decode st j).canvas.w = st.canvas.w ∧
      (runJob decode st j).canvas.h = st.canvas.h := by
  unfold runJob
  cases decode j.hevcFile <;> exact ⟨rfl, rfl⟩

lemma runQueue_canvas_dims (decode : String → Except String GoImage) :
    ∀ (q : List QueueItem) (st : WorkerState),
      (runQueue decode st q).canvas.w = st.canvas.w ∧
        (runQueue decode st q).canvas.h = st.canvas.h := by
  intro q
  induction q with
  | nil => intro st; exact ⟨rfl, rfl⟩
  | cons a t ih =>
    intro st
    rw [runQueue, List.foldl_cons]
    have h1 := ih (runJob decode st a)
    have h2 := runJob_canvas_dims decode st a
    rw [runQueue] at h1
    rw [h1.1, h1.2]
    exact h2

lemma runQueue_pix_untouched (decode : String → Except String GoImage)
    (X Y : Int) :
    ∀ (q : List QueueItem) (st : WorkerState),
      (∀ j ∈ q, ∀ img, decode j.hevcFile = Except.ok img →
        ¬ inRect j img X Y) →
      (runQueue decode st q).canvas.pix X Y = st.canvas.pix X Y := by
  intro q
  induction q with
  | nil => intro st _; rfl
  | cons a t ih =>
    intro st h
    rw [runQueue, List.foldl_cons]
    have hrest := ih (runJob decode st a)
      (fun j hj => h j (List.mem_cons_of_mem a hj))
    rw [runQueue] at hrest
    rw [hrest]
    unfold runJob
    cases hd : decode a.hevcFile with
    | error e => rfl
    | ok img =>
      show (drawSrc st.canvas (a.x * img.w) (a.y * img.h) img).pix X Y =
        st.canvas.pix X Y
      unfold drawSrc
      dsimp only
      rw [if_neg fun hc =>
        h a (List.mem_cons_self a t) img hd ⟨hc.1, hc.2.1, hc.2.2.1, hc.2.2.2.1⟩]

lemma runQueue_pix_hit (decode : String → Except String GoImage)
    (imgOf : QueueItem → GoImage) (X Y : Int) :
    ∀ (q : List QueueItem) (st : WorkerState) (k : QueueItem),
      (∀ j ∈ q, decode j.hevcFile = Except.ok (imgOf j)) →
      k ∈ q → q.Nodup →
      inRect k (imgOf k) X Y →
      0 ≤ X → X < st.canvas.w → 0 ≤ Y → Y < st.canvas.h →
      (∀ j ∈ q, j ≠ k → ¬ inRect j (imgOf j) X Y) →
      (runQueue decode st q).canvas.pix X Y =
        (imgOf k).pix (X - k.x * (imgOf k).w) (Y - k.y * (imgOf k).h) := by
  intro q
  induction q with
  | nil => intro st k _ hk; exact absurd hk (List.not_mem_nil k)
  | cons a t ih =>
    intro st k hdec hk hnd hin hX0 hXw hY0 hYh huniq
    rw [runQueue, List.foldl_cons]
    rcases List.mem_cons.mp hk with rfl | hkt
    · have hnot : ∀ j ∈ t, ∀ img, decode j.hevcFile = Except.ok img →
          ¬ inRect j img X Y := by
        intro j hj img hdj
        have hne : j ≠ k := fun he => (List.nodup_cons.mp hnd).1 (he ▸ hj)
        have hx := huniq j (List.mem_cons_of_mem k hj) hne
        rw [hdec j (List.mem_cons_of_mem k hj)] at hdj
        injection hdj with hdj
        rw [← hdj]
        exact hx
      have := runQueue_pix_untouched decode X Y t (runJob decode st k) hnot
      rw [runQueue] at this
      rw [this]
      unfold runJob
      rw [hdec k (List.mem_cons_self k t)]
      show (drawSrc st.canvas (k.x * (imgOf k).w) (k.y * (imgOf k).h)
        (imgOf k)).pix X Y = _
      unfold drawSrc
      dsimp only
      rw [if_pos ⟨hin.1, hin.2.1, hin.2.2.1, hin.2.2.2, hX0, hXw, hY0, hYh⟩]
    · have hdims := runJob_canvas_dims decode st a
      have := ih (runJob decode st a) k
        (fun j hj => hdec j (List.mem_cons_of_mem a hj)) hkt
        (List.nodup_cons.mp hnd).2 hin hX0 (by rw [hdims.1]; exact hXw) hY0
        (by rw [hdims.2]; exact hYh)
        (fun j hj hjk => huniq j (List.mem_cons_of_mem a hj) hjk)
      rw [runQueue] at this
      rw [this]

lemma strip_disjoint {a b x w : Int} (hab : a ≠ b)
    (h1 : a * w ≤ x) (h2 : x < a * w + w)
    (h3 : b * w ≤ x) (h4 : x < b * w + w) : False := by
  have hw : 0 < w := by linarith
  rcases lt_or_gt_of_ne hab with hlt | hlt
  · have hstep : (a + 1) * w ≤ b * w :=
      mul_le_mul_of_nonneg_right (by omega) hw.le
    nlinarith
  · have hstep : (b + 1) * w ≤ a * w :=
      mul_le_mul_of_nonneg_right (by omega) hw.le
    nlinarith

lemma inRect_disjoint {j k : QueueItem} {imgj imgk : GoImage} {X Y : Int}
    (hw : imgj.w = imgk.w) (hh : imgj.h = imgk.h)
    (hne : j.x ≠ k.x ∨ j.y ≠ k.y) :
    ¬ (inRect j imgj X Y ∧ inRect k imgk X Y) := by
  rintro ⟨hj, hk⟩
  unfold inRect at hj hk
  rw [hw, hh] at hj
  rcases hne with hne | hne
  · exact strip_disjoint hne hj.1 hj.2.1 hk.1 hk.2.1
  · exact strip_disjoint hne hj.2.2.1 hj.2.2.2 hk.2.2.1 hk.2.2.2

lemma drawSrc_comm {dst s1 s2 : GoImage} {rx1 ry1 rx2 ry2 : Int}
    (hdisj : ∀ X Y : Int,
      ¬((rx1 ≤ X ∧ X < rx1 + s1.w ∧ ry1 ≤ Y ∧ Y < ry1 + s1.h) ∧
        (rx2 ≤ X ∧ X < rx2 + s2.w ∧ ry2 ≤ Y ∧ Y < ry2 + s2.h))) :
    drawSrc (drawSrc dst rx1 ry1 s1) rx2 ry2 s2 =
      drawSrc (drawSrc dst rx2 ry2 s2) rx1 ry1 s1 := by
  unfold drawSrc
  refine GoImage.ext rfl rfl ?_
  funext X Y
  dsimp only
  by_cases hc1 : rx1 ≤ X ∧ X < rx1 + s1.w ∧ ry1 ≤ Y ∧ Y < ry1 + s1.h ∧
      0 ≤ X ∧ X < dst.w ∧ 0 ≤ Y ∧ Y < dst.h
  · by_cases hc2 : rx2 ≤ X ∧ X < rx2 + s2.w ∧ ry2 ≤ Y ∧ Y < ry2 + s2.h ∧
        0 ≤ X ∧ X < dst.w ∧ 0 ≤ Y ∧ Y < dst.h
    · exact absurd ⟨⟨hc1.1, hc1.2.1, hc1.2.2.1, hc1.2.2.2.1⟩,
        ⟨hc2.1, hc2.2.1, hc2.2.2.1, hc2.2.2.2.1⟩⟩ (hdisj X Y)
    · simp only [if_pos hc1, if_neg hc2]
  · by_cases hc2 : rx2 ≤ X ∧ X < rx2 + s2.w ∧ ry2 ≤ Y ∧ Y < ry2 + s2.h ∧
        0 ≤ X ∧ X < dst.w ∧ 0 ≤ Y ∧ Y < dst.h
    · simp only [if_neg hc1, if_pos hc2]
    · simp only [if_neg hc1, if_neg hc2]

lemma runJob_comm (decode : String → Except String GoImage)
    {x y : QueueItem} {imgx imgy : GoImage}
    (hdx : decode x.hevcFile = Except.ok imgx)
    (hdy : decode y.hevcFile = Except.ok imgy)
    (hdisj : ∀ X Y : Int, ¬(inRect x imgx X Y ∧ inRect y imgy X Y))
    (z : WorkerState) :
    runJob decode (runJob decode z x) y = runJob decode (runJob decode z y) x := by
  unfold runJob
  rw [hdx, hdy]
  dsimp only
  congr 1
  exact drawSrc_comm fun X Y hc => hdisj X Y hc

lemma makeQueueAux_get (C : Nat) (hC0 : (C : Int) ≠ 0) :
    ∀ (files : List String) (i0 : Nat),
      ∃ q, makeQueueAux (C : Int) i0 files = some q ∧
        q.length = files.length ∧
        ∀ n, n < files.length →
          q[n]? = (files[n]?).map fun f =>
            ⟨f, (((i0 + n) % C : Nat) : Int), (((i0 + n) / C : Nat) : Int)⟩ := by
  intro files
  induction files with
  | nil =>
    intro i0
    exact ⟨[], rfl, rfl, fun n hn => absurd hn (by simp)⟩
  | cons f rest ih =>
    intro i0
    obtain ⟨q', hq', hlen', hidx'⟩ := ih (i0 + 1)
    refine ⟨⟨f, ((i0 % C : Nat) : Int), ((i0 / C : Nat) : Int)⟩ :: q', ?_, ?_, ?_⟩
    · simp [makeQueueAux, goIntRem, goIntQuo, hC0, hq', tmod_natCast, tdiv_natCast]
    · simpa using hlen'
    · intro n hn
      cases n with
      | zero => simp
      | succ m =>
        have hm : m < rest.length := by simpa using hn
        have hstep := hidx' m hm
        have harith : i0 + 1 + m = i0 + (m + 1) := by omega
        rw [harith] at hstep
        simpa using hstep

lemma makeQueue_get (C : Nat) (hC0 : (C : Int) ≠ 0) (files : List String)
    (q : List QueueItem) (hq : makeQueue (C : Int) files = some q) :
    q.length = files.length ∧
      ∀ n, n < files.length →
        q[n]? = (files[n]?).map fun f =>
          ⟨f, ((n % C : Nat) : Int), ((n / C : Nat) : Int)⟩ := by
  obtain ⟨q0, hq0, hlen, hidx⟩ := makeQueueAux_get C hC0 files 0
  rw [makeQueue, hq0] at hq
  injection hq with hq
  subst hq
  refine ⟨hlen, fun n hn => ?_⟩
  have hstep := hidx n hn
  simpa using hstep

lemma makeQueue_mem_coords (C : Nat) (hC0 : (C : Int) ≠ 0)
    (files : List String) (q : List QueueItem)
    (hq : makeQueue (C : Int) files = some q) :
    ∀ j ∈ q, ∃ n : Nat, n < files.length ∧ q[n]? = some j ∧
      j.x = ((n % C : Nat) : Int) ∧ j.y = ((n / C : Nat) : Int) := by
  obtain ⟨hlen, hidx⟩ := makeQueue_get C hC0 files q hq
  intro j hj
  obtain ⟨n, hn⟩ := List.getElem?_of_mem hj
  have hnq : n < q.length := by
    by_contra hcon
    rw [List.getElem?_eq_none (by omega)] at hn
    exact Option.noConfusion hn
  have hnf : n < files.length := hlen ▸ hnq
  refine ⟨n, hnf, hn, ?_⟩
  have hstep := hidx n hnf
  rw [hn, List.getElem?_eq_getElem hnf] at hstep
  simp only [Option.map_some'] at hstep
  have hj2 := Option.some.inj hstep
  rw [hj2]
  exact ⟨rfl, rfl⟩

lemma makeQueue_coords_inj (C : Nat) (hC0 : (C : Int) ≠ 0)
    (files : List String) (q : List QueueItem)
    (hq : makeQueue (C : Int) files = some q) :
    ∀ a ∈ q, ∀ b ∈ q, a.x = b.x → a.y = b.y → a = b := by
  intro a ha b hb hx hy
  obtain ⟨m, hmf, hmq, hax, hay⟩ := makeQueue_mem_coords C hC0 files q hq a ha
  obtain ⟨n, hnf, hnq, hbx, hby⟩ := makeQueue_mem_coords C hC0 files q hq b hb
  have h1 : m % C = n % C := by
    rw [hax, hbx] at hx
    exact_mod_cast hx
  have h2 : m / C = n / C := by
    rw [hay, hby] at hy
    exact_mod_cast hy
  have hmn : m = n := by
    calc m = C * (m / C) + m % C := (Nat.div_add_mod _ _).symm
      _ = C * (n / C) + n % C := by rw [h1, h2]
      _ = n := Nat.div_add_mod _ _
  rw [hmn] at hmq
  exact Option.some.inj (hmq.symm.trans hnq)

lemma makeQueue_nodup (C : Nat) (hC0 : (C : Int) ≠ 0) (files : List String)
    (q : List QueueItem) (hq : makeQueue (C : Int) files = some q) :
    q.Nodup := by
  obtain ⟨hlen, hidx⟩ := makeQueue_get C hC0 files q hq
  rw [List.nodup_iff_injective_get]
  intro i j hij
  have hget : ∀ m : Fin q.length, q.get m = q[m.1] := fun m => List.get_eq_getElem q m
  have hchar : ∀ m : Fin q.length,
      (q.get m).x = ((m.1 % C : Nat) : Int) ∧
        (q.get m).y = ((m.1 / C : Nat) : Int) := by
    intro m
    have hmf : m.1 < files.length := hlen ▸ m.2
    have hstep := hidx m.1 hmf
    rw [List.getElem?_eq_getElem m.2, List.getElem?_eq_getElem hmf] at hstep
    simp only [Option.map_some'] at hstep
    have := Option.some.inj hstep
    rw [hget m, this]
    exact ⟨rfl, rfl⟩
  have h1 : i.1 % C = j.1 % C := by
    have := congrArg QueueItem.x hij
    rw [(hchar i).1, (hchar j).1] at this
    exact_mod_cast this
  have h2 : i.1 / C = j.1 / C := by
    have := congrArg QueueItem.y hij
    rw [(hchar i).2, (hchar j).2] at this
    exact_mod_cast this
  apply Fin.ext
  calc i.1 = C * (i.1 / C) + i.1 % C := (Nat.div_add_mod _ _).symm
    _ = C * (j.1 / C) + j.1 % C := by rw [h1, h2]
    _ = j.1 := Nat.div_add_mod _ _

/-- C3: in an R×C grid (C ≥ 1) with uniformly sized w×h decoded tiles, the
job at list index i is drawn at column i mod C, row i div C, into the
rectangle starting at (column*w, row*h), by the opaque source-replaces-
destination copy, so every pixel of block (r,c) of the assembled canvas
equals the corresponding pixel of the decoded bitmap of job index r*C+c. -/
theorem tile_placement (decode : String → Except String GoImage)
    (imgOf : QueueItem → GoImage) (files : List String) (C R : Nat)
    (hC : 1 ≤ C) (w h : Int) (q : List QueueItem)
    (hq : makeQueue (C : Int) files = some q)
    (hlen : files.length = R * C)
    (hdec : ∀ j ∈ q, decode j.hevcFile = Except.ok (imgOf j))
    (huni : ∀ j ∈ q, (imgOf j).w = w ∧ (imgOf j).h = h)
    (r c : Nat) (hr : r < R) (hc : c < C) (x y : Int)
    (hx0 : 0 ≤ x) (hxw : x < w) (hy0 : 0 ≤ y) (hyh : y < h)
    (st : WorkerState)
    (hW : st.canvas.w = (C : Int) * w) (hH : st.canvas.h = (R : Int) * h)
    (k : QueueItem) (hk : q[r * C + c]? = some k) :
    (runQueue decode st q).canvas.pix ((c : Int) * w + x) ((r : Int) * h + y) =
      (imgOf k).pix x y := by
  have hC0 : (C : Int) ≠ 0 := by exact_mod_cast Nat.one_le_iff_ne_zero.mp hC
  have hw : 0 < w := lt_of_le_of_lt hx0 hxw
  have hhp : 0 < h := lt_of_le_of_lt hy0 hyh
  obtain ⟨hqlen, hidx⟩ := makeQueue_get C hC0 files q hq
  have hnf : r * C + c < files.length := by
    rw [hlen]
    calc r * C + c < r * C + C := by omega
      _ = (r + 1) * C := by ring
      _ ≤ R * C := Nat.mul_le_mul_right C (by omega)
  have kmem : k ∈ q := List.getElem?_mem hk
  have hmod : (r * C + c) % C = c := by
    have he : r * C + c = c + r * C := by omega
    rw [he, Nat.add_mul_mod_self_right, Nat.mod_eq_of_lt hc]
  have hdiv : (r * C + c) / C = r := by
    have he : r * C + c = c + r * C := by omega
    rw [he, Nat.add_mul_div_right c r (show 0 < C by omega),
      Nat.div_eq_of_lt hc, Nat.zero_add]
  have hkco : k.x = (c : Int) ∧ k.y = (r : Int) := by
    have hstep := hidx (r * C + c) hnf
    rw [hk, List.getElem?_eq_getElem hnf] at hstep
    simp only [Option.map_some'] at hstep
    have h2 := Option.some.inj hstep
    rw [h2, hmod, hdiv]
    exact ⟨rfl, rfl⟩
  have hin : inRect k (imgOf k)
      ((c : Int) * w + x) ((r : Int) * h + y) := by
    unfold inRect
    rw [hkco.1, hkco.2, (huni k kmem).1, (huni k kmem).2]
    refine ⟨by linarith, by linarith, by linarith, by linarith⟩
  have hcpos : (0 : Int) ≤ (c : Int) := by positivity
  have hrpos : (0 : Int) ≤ (r : Int) := by positivity
  have hX0 : (0 : Int) ≤ (c : Int) * w + x := by
    have := mul_nonneg hcpos hw.le
    linarith
  have hY0 : (0 : Int) ≤ (r : Int) * h + y := by
    have := mul_nonneg hrpos hhp.le
    linarith
  have hcc : ((c : Int) + 1) ≤ (C : Int) := by exact_mod_cast hc
  have hrr : ((r : Int) + 1) ≤ (R : Int) := by exact_mod_cast hr
  have hXw : (c : Int) * w + x < st.canvas.w := by
    rw [hW]
    nlinarith [mul_le_mul_of_nonneg_right hcc hw.le]
  have hYh : (r : Int) * h + y < st.canvas.h := by
    rw [hH]
    nlinarith [mul_le_mul_of_nonneg_right hrr hhp.le]
  have huniq : ∀ j ∈ q, j ≠ k →
      ¬ inRect j (imgOf j) ((c : Int) * w + x) ((r : Int) * h + y) := by
    intro j hj hne hinj
    by_cases hco : j.x = k.x ∧ j.y = k.y
    · exact hne (makeQueue_coords_inj C hC0 files q hq j hj k kmem hco.1 hco.2)
    · have hco2 : j.x ≠ k.x ∨ j.y ≠ k.y := by tauto
      exact inRect_disjoint
        (by rw [(huni j hj).1, (huni k kmem).1])
        (by rw [(huni j hj).2, (huni k kmem).2]) hco2 ⟨hinj, hin⟩
  have hfinal := runQueue_pix_hit decode imgOf
    ((c : Int) * w + x) ((r : Int) * h + y) q st k hdec kmem
    (makeQueue_nodup C hC0 files q hq) hin hX0 hXw hY0 hYh huniq
  rw [hfinal, hkco.1, hkco.2, (huni k kmem).1, (huni k kmem).2]
  congr 1 <;> ring

/-- Witness for C3: a 1×2 grid of 1×1 tiles; the pixel of block (0,1) of
the assembled canvas equals the decoded bitmap of job index 1. -/
theorem tile_placement_witness :
    (runQueue (fun _ => Except.ok ⟨1, 1, fun _ _ => 7⟩)
        ⟨zeroCanvas 2 1, none⟩
        [⟨"a", 0, 0⟩, ⟨"b", 1, 0⟩]).canvas.pix 1 0 = 7 := by
  have H := tile_placement (fun _ => Except.ok ⟨1, 1, fun _ _ => 7⟩)
    (fun _ => ⟨1, 1, fun _ _ => 7⟩) ["a", "b"] 2 1 (by omega) 1 1
    [⟨"a", 0, 0⟩, ⟨"b", 1, 0⟩] (by decide) (by decide)
    (fun _ _ => rfl) (fun _ _ => ⟨rfl, rfl⟩)
    0 1 (by omega) (by omega) 0 0 (by omega) (by omega) (by omega) (by omega)
    ⟨zeroCanvas 2 1, none⟩ (by decide) (by decide)
    ⟨"b", 1, 0⟩ (by decide)
  simpa using H

/-- C8: for a fixed grid descriptor and tile sources that all decode
successfully with uniform size, the composited state is the same for every
processing order of the jobs — hence for every worker-pool size — because
the destination rectangles of distinct jobs are disjoint. -/
theorem pool_schedule_independent (decode : String → Except String GoImage)
    (imgOf : QueueItem → GoImage) (files : List String) (C : Nat)
    (hC : 1 ≤ C) (w h : Int) (q q' : List QueueItem)
    (hq : makeQueue (C : Int) files = some q)
    (hdec : ∀ j ∈ q, decode j.hevcFile = Except.ok (imgOf j))
    (huni : ∀ j ∈ q, (imgOf j).w = w ∧ (imgOf j).h = h)
    (hperm : q.Perm q') (st : WorkerState) :
    runQueue decode st q = runQueue decode st q' := by
  have hC0 : (C : Int) ≠ 0 := by exact_mod_cast Nat.one_le_iff_ne_zero.mp hC
  unfold runQueue
  refine foldl_perm_of_comm hperm ?_ st
  intro a ha b hb z
  by_cases hab : a = b
  · rw [hab]
  · have hco : a.x ≠ b.x ∨ a.y ≠ b.y := by
      by_contra hcon
      push_neg at hcon
      exact hab (makeQueue_coords_inj C hC0 files q hq a ha b hb
        hcon.1 hcon.2)
    exact runJob_comm decode (hdec a ha) (hdec b hb)
      (fun X Y => inRect_disjoint
        (by rw [(huni a ha).1, (huni b hb).1])
        (by rw [(huni a ha).2, (huni b hb).2]) hco) z

/-- Witness for C8: the two processing orders of a 2-tile queue produce the
same final state. -/
theorem pool_schedule_independent_witness :
    runQueue (fun _ => Except.ok ⟨1, 1, fun _ _ => 7⟩)
        ⟨zeroCanvas 2 1, none⟩ [⟨"a", 0, 0⟩, ⟨"b", 1, 0⟩] =
      runQueue (fun _ => Except.ok ⟨1, 1, fun _ _ => 7⟩)
        ⟨zeroCanvas 2 1, none⟩ [⟨"b", 1, 0⟩, ⟨"a", 0, 0⟩] :=
  pool_schedule_independent (fun _ => Except.ok ⟨1, 1, fun _ _ => 7⟩)
    (fun _ => ⟨1, 1, fun _ _ => 7⟩) ["a", "b"] 2 (by omega) 1 1
    [⟨"a", 0, 0⟩, ⟨"b", 1, 0⟩] [⟨"b", 1, 0⟩, ⟨"a", 0, 0⟩] (by decide)
    (fun _ _ => rfl) (fun _ _ => ⟨rfl, rfl⟩) (by decide)
    ⟨zeroCanvas 2 1, none⟩

/-- C5 counterexample: the parse result is NOT independent of line order in
general.  The streams `width=1\nwidth=2\n` and `width=2\nwidth=1\n` contain
the same lines (as a multiset) yet parse to different structs, because a
repeated recognized name is resolved last-writer-wins. -/
theorem metadata_order_dependence_counterexample :
    (splitLines "width=1\nwidth=2\n".toList).Perm
        (splitLines "width=2\nwidth=1\n".toList) ∧
      heifParseInfo "width=1\nwidth=2\n".toList ≠
        heifParseInfo "width=2\nwidth=1\n".toList := by
  decide

/-- C5 (amended): malformed or unrecognized lines are skipped without
aborting and without affecting fields parsed from other lines; a field set
by no line retains its zero default; and the result is independent of line
order PROVIDED no two distinct lines assign the same recognized field
(without that proviso order matters, as a repeated name is resolved
last-writer-wins). -/
theorem metadata_parse_robust (pre post : List (List Char)) (junk : List Char)
    (hjunk : lineField junk = none)
    (ls ls' : List (List Char)) (f : MetaField)
    (hunset : ∀ l ∈ ls, lineField l ≠ some f)
    (hperm : ls.Perm ls')
    (hpair : ls.Pairwise fun a b =>
      lineField a = none ∨ lineField b = none ∨ lineField a ≠ lineField b) :
    parseLines (pre ++ junk :: post) = parseLines (pre ++ post) ∧
      getField f (parseLines ls) = 0 ∧
      parseLines ls = parseLines ls' := by
  refine ⟨?_, ?_, ?_⟩
  · unfold parseLines
    rw [List.foldl_append, List.foldl_append, List.foldl_cons,
      applyLine_of_none hjunk]
  · have h0 : getField f ({} : HeifInfo) = 0 := by cases f <;> rfl
    unfold parseLines
    rw [getField_foldl_of_unset f ls ({} : HeifInfo) hunset, h0]
  · unfold parseLines
    refine foldl_perm_of_comm hperm ?_ ({} : HeifInfo)
    intro x hx y hy z
    by_cases hxy : x = y
    · rw [hxy]
    · exact applyLine_comm
        (hpair.forall
          (fun a b h => by
            rcases h with h | h | h
            · exact Or.inr (Or.inl h)
            · exact Or.inl h
            · exact Or.inr (Or.inr (Ne.symm h)))
          hx hy hxy) z

/-- Witness for C5 (amended) on concrete data: a junk line inserted between
two recognized lines is ignored, `cols` stays at its zero default when never
assigned, and swapping two lines that set different fields leaves the parse
result unchanged. -/
theorem metadata_parse_robust_witness :
    parseLines ["width=3\n".toList, "bogus\n".toList, "rows=4\n".toList] =
        parseLines ["width=3\n".toList, "rows=4\n".toList] ∧
      getField MetaField.cols
          (parseLines ["width=1\n".toList, "rows=4\n".toList]) = 0 ∧
      parseLines ["width=1\n".toList, "rows=4\n".toList] =
        parseLines ["rows=4\n".toList, "width=1\n".toList] :=
  metadata_parse_robust ["width=3\n".toList] ["rows=4\n".toList]
    "bogus\n".toList (by decide)
    ["width=1\n".toList, "rows=4\n".toList]
    ["rows=4\n".toList, "width=1\n".toList]
    MetaField.cols (by decide) (by decide) (by decide)

/-- C4: every grid descriptor produced by the metadata resolver whose tile
count equals 1 has rows and cols forced to 1 by the fixup that runs before
assembly, whatever rows/cols values the metadata text reported. -/
theorem single_tile_forces_unit_grid (s : List Char)
    (h : (heifParseInfo s).Tiles = 1) :
    (fixupSingleTile (heifParseInfo s)).Rows = 1 ∧
      (fixupSingleTile (heifParseInfo s)).Cols = 1 := by
  unfold fixupSingleTile
  rw [if_pos h]
  exact ⟨rfl, rfl⟩

/-- Witness for C4 on a concrete metadata stream that reports a 9×7 grid
with a single tile. -/
theorem single_tile_forces_unit_grid_witness :
    (heifParseInfo "tiles=1\nrows=7\ncols=9\n".toList).Tiles = 1 ∧
      (fixupSingleTile (heifParseInfo "tiles=1\nrows=7\ncols=9\n".toList)).Rows = 1 ∧
      (fixupSingleTile (heifParseInfo "tiles=1\nrows=7\ncols=9\n".toList)).Cols = 1 :=
  ⟨by decide, single_tile_forces_unit_grid _ (by decide)⟩
